import Mathlib

/-
Verification development for the BM25 inverted-index repository
(src/inverted_index.py and src/evaluate.py).

Strings are modelled through their character lists; machine floats are
modelled exactly: scores that only flow through additions and comparisons
(merge, process_query, the evaluation metrics) are rationals, and the
logarithmic BM25 factors are real numbers.
-/

attribute [local semireducible] Rat.add Rat.mul Rat.inv Rat.sub Rat.ofScientific

/-- ASCII letter test: the character class A-Za-z of the splitting regular
expression used in inverted_index.py (lines 75 and 77) and evaluate-side
query splitting (inverted_index.py line 207). -/
def isAlphaCh (c : Char) : Bool :=
  (65 ≤ c.toNat && c.toNat ≤ 90) || (97 ≤ c.toNat && c.toNat ≤ 122)

/-- ASCII lowercasing of one character; tokens produced by the splitter
consist of ASCII letters only, on which Python str.lower adds 32 to
uppercase code points (inverted_index.py line 78). -/
def lowerChar (c : Char) : Char :=
  if 65 ≤ c.toNat && c.toNat ≤ 90 then Char.ofNat (c.toNat + 32) else c

/-- ASCII whitespace recognised by Python str.strip. -/
def isSpaceCh (c : Char) : Bool :=
  c.toNat = 32 || c.toNat = 9 || c.toNat = 10 || c.toNat = 13 ||
    c.toNat = 11 || c.toNat = 12

/-- Python str.strip on a character list: drop whitespace from both ends
(inverted_index.py lines 69 and 78). -/
def stripList (l : List Char) : List Char :=
  ((l.dropWhile isSpaceCh).reverse.dropWhile isSpaceCh).reverse

/-- Python re.split with pattern "[^A-Za-z]+": the pieces of the input
between maximal runs of non-letters.  Empty pieces appear where the input
starts or ends with a separator run, exactly as in re.split.  A letter is
prepended to the first piece; a non-letter before a letter opens a fresh
empty piece, while a non-letter before another non-letter joins the
separator run already accounted for. -/
def splitRuns : List Char → List (List Char)
  | [] => [[]]
  | c :: t =>
    let r := splitRuns t
    if isAlphaCh c then
      match r with
      | [] => [[c]]
      | w :: ws => (c :: w) :: ws
    else
      match t with
      | [] => [[], []]
      | d :: _ => if isAlphaCh d then [] :: r else r

/-- re.split("[^A-Za-z]+", s) on a Lean string. -/
def reSplit (s : String) : List String :=
  (splitRuns s.data).map String.mk

/-- Python str.lower on a token. -/
def lowerStr (s : String) : String := String.mk (s.data.map lowerChar)

/-- Python str.strip on a Lean string. -/
def stripStr (s : String) : String := String.mk (stripList s.data)

/-- The token sequence a document line contributes to the index: split on
non-letter runs, lowercase, strip, and drop empty words
(inverted_index.py lines 77-82). -/
def docWords (line : String) : List String :=
  ((reSplit line).map (fun w => stripStr (lowerStr w))).filter (fun w => w ≠ "")

/-- Number of tab characters in a character list. -/
def countTabs : List Char → ℕ
  | [] => 0
  | c :: t => (if c = '\t' then 1 else 0) + countTabs t

/-- Split a character list at its first tab: Python str.split("\t", _)
takes the part before the first tab and the remainder. -/
def breakTab : List Char → Option (List Char × List Char)
  | [] => none
  | c :: t =>
    if c = '\t' then some ([], t)
    else (breakTab t).map (fun pr => (c :: pr.1, pr.2))

/-- Python line.split("\t", 2): at most two splits, the remainder is kept
whole, so the result has one, two or three parts. -/
def splitTab2 (l : List Char) : List (List Char) :=
  match breakTab l with
  | none => [l]
  | some (a, r1) =>
    match breakTab r1 with
    | none => [a, r1]
    | some (b, r2) => [a, b, r2]

/-- One line of corpus ingestion, inverted_index.py lines 69-74: strip the
line, split it into at most three tab-separated parts, and unpack them as
title, description and trailing rest.  Python raises ValueError (the
spec's MalformedRecordError) when the unpacking into three names fails,
which is modelled by `none`. -/
def ingestLine (line : String) : Option (String × String × String) :=
  match splitTab2 (stripList line.data) with
  | [t, d, r] => some (String.mk t, String.mk d, String.mk r)
  | _ => none

/-- InvertedIndex.merge, inverted_index.py lines 159-182, translated loop
for loop.  The outer while runs while both cursors are in range; the inner
while copies entries of the second list whose id is below the current
first-list id and returns the union built so far as soon as the second
list is exhausted; on equal ids the summed posting is appended but only
the first cursor advances; on a larger second id the first entry is
appended and the first cursor advances.  When the outer condition fails
nothing further is appended. -/
def mergeFuel : ℕ → List (ℕ × ℚ) → List (ℕ × ℚ) → List (ℕ × ℚ)
  | 0, _, _ => []
  | _ + 1, [], _ => []
  | _ + 1, _ :: _, [] => []
  | n + 1, p1 :: t1, p2 :: t2 =>
    if p2.1 < p1.1 then
      match t2 with
      | [] => [p2]
      | q :: u => p2 :: mergeFuel n (p1 :: t1) (q :: u)
    else if p2.1 = p1.1 then
      (p2.1, p1.2 + p2.2) :: mergeFuel n t1 (p2 :: t2)
    else
      p1 :: mergeFuel n t1 (p2 :: t2)

/-- The entry point supplies one unit of fuel per entry of either list, the
linear-time bound of the loop; each loop iteration consumes at least one
entry, so the fuel 0 case is reached only with both lists exhausted. -/
def merge (l1 l2 : List (ℕ × ℚ)) : List (ℕ × ℚ) :=
  mergeFuel (l1.length + l2.length) l1 l2

/-- Stable insertion of a posting into a list sorted by descending score:
the new element goes before the first element whose score is not larger,
so elements with equal scores keep their original relative order. -/
def insertDesc (p : ℕ × ℚ) : List (ℕ × ℚ) → List (ℕ × ℚ)
  | [] => [p]
  | q :: t => if q.2 ≤ p.2 then p :: q :: t else q :: insertDesc p t

/-- Python sorted(_, key score, reverse) as a stable descending sort
(inverted_index.py line 218). -/
def sortScoreDesc : List (ℕ × ℚ) → List (ℕ × ℚ)
  | [] => []
  | p :: t => insertDesc p (sortScoreDesc t)

/-- Association-list lookup modelling Python dict access on
self.inverted_lists from process_query (first matching key). -/
def lookupKey : List (String × α) → String → Option α
  | [], _ => none
  | (k, v) :: t, w => if k = w then some v else lookupKey t w

/-- InvertedIndex.process_query, inverted_index.py lines 207-223: split the
query on non-letter runs (no lowercasing, no removal of empty tokens),
start from the first keyword's posting list (empty when absent), then fold
every keyword of the list - the first one again included - through merge,
resetting the accumulator to empty on a keyword that is not in the index;
finally sort by descending score and keep the document ids. -/
def process_query (inv : List (String × List (ℕ × ℚ))) (query : String) :
    List ℕ :=
  let keywords := reSplit query
  let union0 :=
    match keywords with
    | [] => []
    | w :: _ => (lookupKey inv w).getD []
  let u := keywords.foldl
    (fun acc k =>
      match lookupKey inv k with
      | some l => merge acc l
      | none => []) union0
  (sortScoreDesc u).map Prod.fst

/-- Pass-1 update of one posting list for one more occurrence of its word
in document d (inverted_index.py lines 84-91): on the empty list (the word
is new) create the list [(d, 1)]; if the last entry is for another
document append (d, 1); if the last entry is already for d increment its
count. -/
def bumpLast (d : ℕ) : List (ℕ × ℕ) → List (ℕ × ℕ)
  | [] => [(d, 1)]
  | [p] => if p.1 = d then [(p.1, p.2 + 1)] else [p, (d, 1)]
  | p :: q :: t => p :: bumpLast d (q :: t)

/-- Record one occurrence of word w in document d in the inverted lists,
modelled as a map from words to posting lists (absent key = empty
list). -/
def addWord (inv : String → List (ℕ × ℕ)) (d : ℕ) (w : String) :
    String → List (ℕ × ℕ) :=
  fun w' => if w' = w then bumpLast d (inv w) else inv w'

/-- Record every word of one stripped document line
(inverted_index.py line 77 loop). -/
def addLine (inv : String → List (ℕ × ℕ)) (d : ℕ) (line : String) :
    String → List (ℕ × ℕ) :=
  (docWords line).foldl (fun m w => addWord m d w) inv

/-- Pass 1 of build_from_file (inverted_index.py lines 66-91): documents
are numbered 1, 2, ... in file order, each line is stripped and its words
added.  The accumulator and the current document counter are explicit. -/
def pass1 : (String → List (ℕ × ℕ)) → ℕ → List String → String → List (ℕ × ℕ)
  | inv, _, [] => inv
  | inv, d, line :: rest => pass1 (addLine inv (d + 1) (stripStr line)) (d + 1) rest

/-- Document lengths as stored in self.docs (inverted_index.py line 75):
the length of the raw re.split of the stripped line, empty pieces
included. -/
def docLens (lines : List String) : List ℕ :=
  lines.map (fun l => (reSplit (stripStr l)).length)

/-- Average document length (inverted_index.py lines 94-97).  Python
raises ZeroDivisionError on an empty corpus; real division by zero gives 0
here, and build completion (buildOk) excludes that case. -/
noncomputable def avdl (lines : List String) : ℝ :=
  ((docLens lines).sum : ℝ) / (lines.length : ℝ)

/-- The IDF factor computed by InvertedIndex.bm25
(inverted_index.py line 123). -/
noncomputable def idf (N df : ℝ) : ℝ :=
  Real.logb 2 ((N - df + 0.5) / (df + 0.5) + 1)

/-- The IDF factor stated by the build_from_file docstring formula
(inverted_index.py line 37): log2(N/df). -/
noncomputable def idf_doc (N df : ℝ) : ℝ := Real.logb 2 (N / df)

/-- InvertedIndex.bm25tf on one posting (inverted_index.py lines 109-117):
replace the raw term frequency tf by tf * (k1+1) / (k1 * (1 - b + b *
DL/AVDL) + tf), DL being the stored length of the posting's document. -/
noncomputable def bm25tf_post (k1 b av : ℝ) (lens : List ℕ) (p : ℕ × ℕ) :
    ℕ × ℝ :=
  (p.1,
    (p.2 : ℝ) * (k1 + 1) /
      (k1 * (1 - b + b * ((lens.getD (p.1 - 1) 0 : ℕ) : ℝ) / av) + (p.2 : ℝ)))

/-- Whether build_from_file runs to completion: Python raises ValueError
on a line whose stripped form has fewer than three tab-separated fields
(line 74) and ZeroDivisionError on an empty corpus (line 97). -/
def buildOk (lines : List String) : Prop :=
  lines ≠ [] ∧ ∀ l ∈ lines, (ingestLine l).isSome = true

instance (lines : List String) : Decidable (buildOk lines) := by
  unfold buildOk
  exact inferInstance

/-- InvertedIndex.build_from_file (inverted_index.py lines 66-101): pass 1
accumulates term counts, then for every term bm25tf rescales each posting
and bm25 multiplies it by the IDF of the term's document frequency
df = length of its posting list, with N the number of documents. -/
noncomputable def build_from_file (b k : ℝ) (lines : List String) :
    String → List (ℕ × ℝ) :=
  fun w =>
    let l := pass1 (fun _ => []) 0 lines w
    let withTf := l.map (bm25tf_post k b (avdl lines) (docLens lines))
    withTf.map (fun p => (p.1, p.2 * idf (lines.length : ℝ) (l.length : ℝ)))

/-- Evaluate.precision_at_k, evaluate.py lines 86-90: count the entries
among the first k results that are relevant and divide the count by k.
Python raises ZeroDivisionError when k is zero, modelled by `none`. -/
def precision_at_k (res : List ℕ) (rel : Finset ℕ) (k : ℕ) : Option ℚ :=
  if k = 0 then none
  else some (((res.take k).countP (fun a => decide (a ∈ rel)) : ℚ) / (k : ℚ))

/-- Evaluate.average_precision, evaluate.py lines 105-116: for each relevant
id found in the results take the precision at its first 1-based rank, sum,
and divide by the number of relevant ids; 0 when none is found.  The ranks
passed on are positive, so the precision_at_k calls never hit the k = 0
error path and getD 0 is never exercised. -/
def average_precision (res : List ℕ) (rel : Finset ℕ) : ℚ :=
  let found := rel.filter (fun a => a ∈ res)
  if found = ∅ then 0
  else
    (Finset.sum found
        (fun a => (precision_at_k res rel (res.indexOf a + 1)).getD 0)) /
      (rel.card : ℚ)

example : reSplit "a!b" = ["a", "b"] := by decide
example : reSplit "!a" = ["", "a"] := by decide
example : reSplit "" = [""] := by decide
example : docWords "Foo bar!" = ["foo", "bar"] := by decide
example : merge [(3, (17 : ℚ)/10), (5, 16/5), (7, 41/10)] [(1, 23/10), (5, 13/10)]
    = [(1, 23/10), (3, 17/10), (5, 9/2), (5, 13/10)] := by decide
example : precision_at_k [5, 3, 6, 1, 2] {1, 2, 5, 6, 7, 8} 4 = some (3/4) := by decide
example : precision_at_k [5, 3, 6, 1, 2] {1, 2, 5, 6, 7, 8} 8 = some (1/2) := by decide
example : (ingestLine "a\tb\tc").isSome = true := by decide
example : pass1 (fun _ => []) 0 ["a b a", "b c"] "a" = [(1, 2)] := by decide
example : pass1 (fun _ => []) 0 ["a b a", "b c"] "b" = [(1, 1), (2, 1)] := by decide

/-- C1: evaluating the embedded merge at the posting lists of the claim.
On the equal docId 1 the code appends the summed posting but advances only
the first cursor, so the entry (1, 1.7) of the second list is emitted
again by the inner loop, and when the second list is exhausted inside the
inner loop the remaining first-list entries after (5, 3.2) as well as the
tail entry (6, 3.3) are dropped.  The output therefore differs from the
sorted union [(1,3.8),(2,1.3),(5,3.2),(6,3.3)] required by the claim and
by the function's own doctest. -/
theorem c1_merge_code_eval :
    merge [(1, (21 : ℚ)/10), (5, 16/5)] [(1, 17/10), (2, 13/10), (6, 33/10)]
        = [(1, 19/5), (1, 17/10), (2, 13/10), (5, 16/5)] ∧
    merge [(1, (21 : ℚ)/10), (5, 16/5)] [(1, 17/10), (2, 13/10), (6, 33/10)]
        ≠ [(1, 19/5), (2, 13/10), (5, 16/5), (6, 33/10)] :=
  ⟨by decide, by decide⟩

/-- C4: the embedded merge returns the empty list whenever either input is
empty, because the outer loop condition fails immediately and no tail is
flushed; in particular merge([(1, 2.3)], []) is [] and not [(1, 2.3)],
contradicting the claim and the function's own doctests.  Only the
merge([], []) = [] part of the claim holds. -/
theorem c4_merge_empty_code_eval :
    (∀ l : List (ℕ × ℚ), merge l [] = [] ∧ merge [] l = []) ∧
    merge [(1, (23 : ℚ)/10)] [] = [] ∧
    merge ([] : List (ℕ × ℚ)) [(1, 23/10), (5, 13/10)] = [] := by
  refine ⟨fun l => ⟨?_, ?_⟩, by decide, by decide⟩
  · cases l with
    | nil => rfl
    | cons p t => rfl
  · cases l with
    | nil => rfl
    | cons p t => rfl

/-- C2: evaluating the embedded process_query on the index containing only
foo with postings [(1, 0.2), (3, 0.6)] and the one-keyword query foo.
The loop runs over every keyword, the first included, so the accumulator
that already holds foo's list is merged with that same list; document 1 is
emitted twice (once summed, once re-copied by the buggy merge) and the
result is [3, 1, 1].  Folding only the remaining keywords, as the claim
and the method's doctest describe, would leave the single list untouched
and return [3, 1]. -/
theorem c2_process_query_code_eval :
    process_query [("foo", [(1, (1 : ℚ)/5), (3, 3/5)])] "foo" = [3, 1, 1] := by
  decide

/-- C3: ingestion lowercases tokens (docWords "Foo" indexes the term
"foo") but process_query splits the query without lowercasing (reSplit
"Foo" keeps "Foo"), so the query Foo finds nothing in an index whose only
term is foo, although the claim requires the match in any letter case. -/
theorem c3_query_tokenization_code_eval :
    docWords "Foo" = ["foo"] ∧ reSplit "Foo" = ["Foo"] ∧
    process_query [("foo", [(1, (1 : ℚ))])] "Foo" = [] :=
  ⟨by decide, by decide, by decide⟩

/-- C5: the IDF factor actually computed by bm25, log2((N-df+0.5)/(df+0.5)+1),
is strictly positive at df = N = 4 (it equals log2(10/9)), so it is not
zero as the claim states; the claimed scores 0.000 for movie and 2.000 for
animation instead match the docstring formula log2(N/df), which is 0 at
df = N = 4 and 2 at df = 1, N = 4. -/
theorem c5_idf_code_eval :
    0 < idf 4 4 ∧ idf_doc 4 4 = 0 ∧ idf_doc 4 1 = 2 := by
  refine ⟨?_, ?_, ?_⟩
  · unfold idf
    exact Real.logb_pos (by norm_num) (by norm_num)
  · unfold idf_doc
    norm_num
  · unfold idf_doc
    rw [show (4 : ℝ)/1 = 2 ^ (2 : ℕ) by norm_num, Real.logb_pow,
      Real.logb_self_eq_one (by norm_num)]
    norm_num

/-- C8: the embedded precision_at_k returns none (Python: ZeroDivisionError
from 0/0) for k = 0, on the doctest input and on every input, instead of
the 0 the claim and the function's own doctest state. -/
theorem c8_precision_at_k_zero_code_eval :
    precision_at_k [5, 3, 6, 1, 2] {1, 2, 5, 6, 7, 8} 0 = none ∧
    ∀ res rel, precision_at_k res rel 0 = none :=
  ⟨rfl, fun _ _ => rfl⟩

lemma breakTab_eq_none {l : List Char} (h : breakTab l = none) :
    countTabs l = 0 := by
  induction l with
  | nil => rfl
  | cons c t ih =>
    by_cases hc : c = '\t'
    · simp [breakTab, hc] at h
    · simp [breakTab, hc] at h
      simp [countTabs, hc, ih h]

lemma breakTab_eq_some {l a r} (h : breakTab l = some (a, r)) :
    countTabs l = countTabs r + 1 := by
  induction l generalizing a r with
  | nil => simp [breakTab] at h
  | cons c t ih =>
    by_cases hc : c = '\t'
    · simp [breakTab, hc] at h
      obtain ⟨h1, h2⟩ := h
      subst h2
      simp [countTabs, hc]
      omega
    · simp [breakTab, hc] at h
      obtain ⟨a', ht, rfl⟩ := h
      simp [countTabs, hc, ih ht]

/-- C9 counterexample: the line consisting of the two claimed minimum
fields title and description, separated by a single tab, is rejected by
ingestion (Python: unpacking split("\t", 2) into three names raises
ValueError on the two-part result), although the claim says such a line is
ingested without error. -/
theorem c9_min_fields_counterexample :
    ingestLine "t\td" = none ∧
    splitTab2 (stripList ("t\td").data) = [['t'], ['d']] :=
  ⟨by decide, by decide⟩

/-- C9 amended: one corpus line is ingested without error exactly when its
stripped form contains at least two tab characters, that is at least three
tab-separated fields (title, description and a non-optional remainder);
with fewer fields ingestion fails. -/
theorem c9_min_fields_amended (line : String) :
    (ingestLine line).isSome = true ↔
      2 ≤ countTabs (stripList line.data) := by
  unfold ingestLine splitTab2
  cases h1 : breakTab (stripList line.data) with
  | none =>
    have h0 := breakTab_eq_none h1
    simp [h0]
  | some pr1 =>
    obtain ⟨a, r1⟩ := pr1
    have hc1 := breakTab_eq_some h1
    cases h2 : breakTab r1 with
    | none =>
      have h0 := breakTab_eq_none h2
      simp [h2, hc1, h0]
    | some pr2 =>
      obtain ⟨b, r2⟩ := pr2
      have hc2 := breakTab_eq_some h2
      simp [h2, hc1, hc2]

/-- C6: average_precision sums, over the relevant ids that occur in the
result list, the precision at the id's first 1-based rank, and divides by
the number of relevant ids (so on the claim's example with only 3 of the
4 relevant ids found the sum 1 + 1/2 + 3/5 is divided by 4, giving
21/40 = 0.525); it is 0 when no relevant id occurs in the results, and in
general its product with the relevant-set size equals the sum of the
per-rank precisions over the relevant ids found. -/
theorem c6_average_precision_correct :
    average_precision [7, 17, 9, 42, 5] {5, 7, 12, 42} = 21/40 ∧
    (∀ res rel, (∀ a ∈ rel, a ∉ res) → average_precision res rel = 0) ∧
    (∀ res rel, average_precision res rel * (rel.card : ℚ)
        = Finset.sum (rel.filter (fun a => a ∈ res))
            (fun a => (precision_at_k res rel (res.indexOf a + 1)).getD 0)) := by
  refine ⟨by decide, ?_, ?_⟩
  · intro res rel h
    have hf : rel.filter (fun a => a ∈ res) = ∅ := by
      apply Finset.filter_eq_empty_iff.mpr
      intro a ha
      simp [h a ha]
    simp [average_precision, hf]
  · intro res rel
    by_cases hf : rel.filter (fun a => a ∈ res) = ∅
    · simp [average_precision, hf]
    · obtain ⟨a, ha⟩ := Finset.nonempty_iff_ne_empty.mpr hf
      have hmem : a ∈ rel := (Finset.mem_filter.mp ha).1
      have hcard : ((rel.card : ℚ)) ≠ 0 :=
        Nat.cast_ne_zero.mpr (Finset.card_ne_zero_of_mem hmem)
      simp [average_precision, hf]
      exact div_mul_cancel₀ _ hcard

/-- C6 witness: instantiating the no-relevant-id-found clause at the
result list [1] and relevant set 2. -/
theorem c6_average_precision_witness :
    average_precision [1] ({2} : Finset ℕ) = 0 :=
  c6_average_precision_correct.2.1 [1] {2} (by decide)

/-- C10: for positive k, precision_at_k divides the count of relevant
entries among the first k results by k itself, so the value is between 0
and 1 and is also at most length(results)/k, the penalty the claim
describes for result lists shorter than k. -/
theorem c10_precision_at_k_bounds (res : List ℕ) (rel : Finset ℕ) (k : ℕ)
    (h : 0 < k) :
    precision_at_k res rel k
        = some (((res.take k).countP (fun a => decide (a ∈ rel)) : ℚ) / (k : ℚ)) ∧
    0 ≤ (((res.take k).countP (fun a => decide (a ∈ rel)) : ℚ) / (k : ℚ)) ∧
    (((res.take k).countP (fun a => decide (a ∈ rel)) : ℚ) / (k : ℚ)) ≤ 1 ∧
    (((res.take k).countP (fun a => decide (a ∈ rel)) : ℚ) / (k : ℚ))
        ≤ (res.length : ℚ) / (k : ℚ) := by
  have hk : k ≠ 0 := Nat.pos_iff_ne_zero.mp h
  have hkq : (0 : ℚ) < (k : ℚ) := by exact_mod_cast h
  have hcount : (res.take k).countP (fun a => decide (a ∈ rel))
      ≤ (res.take k).length := List.countP_le_length _
  have hlen1 : (res.take k).length ≤ k := by
    rw [List.length_take]
    exact Nat.min_le_left _ _
  have hlen2 : (res.take k).length ≤ res.length := by
    rw [List.length_take]
    exact Nat.min_le_right _ _
  refine ⟨by simp [precision_at_k, hk], by positivity, ?_, ?_⟩
  · rw [div_le_one hkq]
    exact_mod_cast le_trans hcount hlen1
  · exact (div_le_div_iff_of_pos_right hkq).mpr (by exact_mod_cast le_trans hcount hlen2)

/-- C10 witness: the bounds at the doctest input with k = 8 on a
5-element result list. -/
theorem c10_precision_at_k_bounds_witness :
    0 < 8 ∧
    (precision_at_k [5, 3, 6, 1, 2] ({1, 2, 5, 6, 7, 8} : Finset ℕ) 8
        = some ((([5, 3, 6, 1, 2].take 8).countP
            (fun a => decide (a ∈ ({1, 2, 5, 6, 7, 8} : Finset ℕ))) : ℚ) / ((8 : ℕ) : ℚ)) ∧
    0 ≤ ((([5, 3, 6, 1, 2].take 8).countP
            (fun a => decide (a ∈ ({1, 2, 5, 6, 7, 8} : Finset ℕ))) : ℚ) / ((8 : ℕ) : ℚ)) ∧
    ((([5, 3, 6, 1, 2].take 8).countP
            (fun a => decide (a ∈ ({1, 2, 5, 6, 7, 8} : Finset ℕ))) : ℚ) / ((8 : ℕ) : ℚ)) ≤ 1 ∧
    ((([5, 3, 6, 1, 2].take 8).countP
            (fun a => decide (a ∈ ({1, 2, 5, 6, 7, 8} : Finset ℕ))) : ℚ) / ((8 : ℕ) : ℚ))
        ≤ (([5, 3, 6, 1, 2] : List ℕ).length : ℚ) / ((8 : ℕ) : ℚ)) :=
  ⟨by decide, c10_precision_at_k_bounds [5, 3, 6, 1, 2] {1, 2, 5, 6, 7, 8} 8 (by decide)⟩

lemma bumpLast_mem_fst {d : ℕ} {l : List (ℕ × ℕ)} {p : ℕ × ℕ}
    (hp : p ∈ bumpLast d l) : p.1 = d ∨ p.1 ∈ l.map Prod.fst := by
  induction l with
  | nil =>
    simp [bumpLast] at hp
    simp [hp]
  | cons q t ih =>
    cases t with
    | nil =>
      by_cases hq : q.1 = d
      · simp [bumpLast, hq] at hp
        simp [hp, hq]
      · simp [bumpLast, hq] at hp
        rcases hp with hp | hp <;> simp [hp]
    | cons r t' =>
      rw [show bumpLast d (q :: r :: t') = q :: bumpLast d (r :: t') from rfl] at hp
      rcases List.mem_cons.mp hp with hp | hp
      · subst hp
        simp
      · rcases ih hp with h | h
        · exact Or.inl h
        · right
          rw [List.map_cons]
          exact List.mem_cons_of_mem _ h

lemma bumpLast_sorted {d : ℕ} {l : List (ℕ × ℕ)}
    (h1 : l.Pairwise (fun p q => p.1 < q.1)) (h2 : ∀ p ∈ l, p.1 ≤ d) :
    (bumpLast d l).Pairwise (fun p q => p.1 < q.1) ∧
      ∀ p ∈ bumpLast d l, p.1 ≤ d := by
  revert h1 h2
  induction l with
  | nil =>
    intro h1 h2
    constructor
    · simp [bumpLast]
    · intro p hp
      simp [bumpLast] at hp
      simp [hp]
  | cons q t ih =>
    intro h1 h2
    cases t with
    | nil =>
      by_cases hq : q.1 = d
      · constructor
        · simp [bumpLast, hq]
        · intro p hp
          simp [bumpLast, hq] at hp
          simp [hp, hq]
      · constructor
        · simp [bumpLast, hq]
          exact lt_of_le_of_ne (h2 q (by simp)) hq
        · intro p hp
          simp [bumpLast, hq] at hp
          rcases hp with hp | hp
          · rw [hp]
            exact h2 q (by simp)
          · simp [hp]
    | cons r t' =>
      have hqt : ∀ p ∈ (r :: t'), p.1 ≤ d :=
        fun p hp => h2 p (List.mem_cons_of_mem _ hp)
      have hhead : ∀ p ∈ (r :: t'), q.1 < p.1 := (List.pairwise_cons.mp h1).1
      obtain ⟨ihp, ihb⟩ := ih (List.pairwise_cons.mp h1).2 hqt
      constructor
      · rw [show bumpLast d (q :: r :: t') = q :: bumpLast d (r :: t') from rfl]
        apply List.pairwise_cons.mpr
        refine ⟨?_, ihp⟩
        intro p hp
        rcases bumpLast_mem_fst hp with hcase | hcase
        · have hqr : q.1 < r.1 := hhead r (by simp)
          have hrd : r.1 ≤ d := hqt r (by simp)
          omega
        · simp only [List.mem_map] at hcase
          obtain ⟨p', hp', he⟩ := hcase
          have := hhead p' hp'
          omega
      · intro p hp
        rw [show bumpLast d (q :: r :: t') = q :: bumpLast d (r :: t') from rfl] at hp
        rcases List.mem_cons.mp hp with hp | hp
        · rw [hp]
          exact h2 q (by simp)
        · exact ihb p hp

/-- The pass-1 invariant: every posting list is strictly increasing in its
document ids and mentions only documents numbered up to d. -/
def InvOK (inv : String → List (ℕ × ℕ)) (d : ℕ) : Prop :=
  ∀ w, ((inv w).Pairwise (fun p q => p.1 < q.1)) ∧ ∀ p ∈ inv w, p.1 ≤ d

lemma invOK_addWord {inv : String → List (ℕ × ℕ)} {d : ℕ} {w : String}
    (h : InvOK inv d) : InvOK (addWord inv d w) d := by
  intro w'
  by_cases hw : w' = w
  · simp only [addWord, hw, if_pos rfl]
    exact bumpLast_sorted (h w).1 (h w).2
  · simp only [addWord, if_neg hw]
    exact h w'

lemma invOK_foldl_addWord {d : ℕ} :
    ∀ (ws : List String) (inv : String → List (ℕ × ℕ)), InvOK inv d →
      InvOK (ws.foldl (fun m w => addWord m d w) inv) d := by
  intro ws
  induction ws with
  | nil =>
    intro inv h
    simpa using h
  | cons w ws ih =>
    intro inv h
    exact ih _ (invOK_addWord h)

lemma invOK_addLine {inv : String → List (ℕ × ℕ)} {d : ℕ} {line : String}
    (h : InvOK inv d) : InvOK (addLine inv d line) d := by
  unfold addLine
  exact invOK_foldl_addWord (docWords line) inv h

lemma invOK_mono {inv : String → List (ℕ × ℕ)} {d e : ℕ} (hde : d ≤ e)
    (h : InvOK inv d) : InvOK inv e :=
  fun w => ⟨(h w).1, fun p hp => le_trans ((h w).2 p hp) hde⟩

lemma invOK_pass1 :
    ∀ (lines : List String) (inv : String → List (ℕ × ℕ)) (d : ℕ), InvOK inv d →
      InvOK (pass1 inv d lines) (d + lines.length) := by
  intro lines
  induction lines with
  | nil =>
    intro inv d h
    simpa using h
  | cons line rest ih =>
    intro inv d h
    have h1 : InvOK (addLine inv (d + 1) (stripStr line)) (d + 1) :=
      invOK_addLine (invOK_mono (Nat.le_succ d) h)
    have h2 := ih _ _ h1
    rw [show pass1 inv d (line :: rest)
        = pass1 (addLine inv (d + 1) (stripStr line)) (d + 1) rest from rfl]
    have harith : d + (line :: rest).length = (d + 1) + rest.length := by
      simp
      omega
    rw [harith]
    exact h2

/-- C7: after a completed build, with documents numbered 1, 2, ... in file
order, every posting list of the index is strictly increasing in docId
(hence each docId occurs at most once): pass 1 only ever increments the
count of the last entry or appends the strictly larger current document
id, and pass 2 rescales scores without touching ids. -/
theorem c7_posting_ids_sorted (lines : List String) (b k : ℝ) (w : String)
    (h : buildOk lines) :
    ((build_from_file b k lines w).map Prod.fst).Pairwise (· < ·) := by
  have hinv : InvOK (pass1 (fun _ => []) 0 lines) (0 + lines.length) :=
    invOK_pass1 lines (fun _ => []) 0 (by intro w'; simp)
  have hp : (pass1 (fun _ => []) 0 lines w).Pairwise
      (fun p q : ℕ × ℕ => p.1 < q.1) := (hinv w).1
  have heq : (build_from_file b k lines w).map Prod.fst
      = (pass1 (fun _ => []) 0 lines w).map Prod.fst := by
    unfold build_from_file
    simp only [List.map_map]
    rfl
  rw [heq, List.pairwise_map]
  exact hp

/-- C7 witness: completion holds for the one-line corpus with three
tab-separated fields, and the theorem applies to it. -/
theorem c7_posting_ids_sorted_witness :
    buildOk ["a\tb\tc"] ∧
    ((build_from_file 0 0 ["a\tb\tc"] "a").map Prod.fst).Pairwise (· < ·) :=
  ⟨by decide, c7_posting_ids_sorted ["a\tb\tc"] 0 0 "a" (by decide)⟩
